import Mathlib

/-!
Verification of the SHA-256/224 incremental hash engine in
packages/hub/src/vendor/hash-wasm/sha256.c.

The C code is shallowly embedded: machine integers become Nat with explicit
reduction modulo 2^32 (M32) or 2^64 (M64) where the C types wrap; the byte
buffers become lists of Nat (each entry one byte).  The 64-byte carry buffer
ctx->message is modelled by its valid region only: under the invariant
length of message = ctx.length mod 64 (which init establishes and update
preserves, see the claims about the state invariant), a byte store at offset
index = ctx.length mod 64 in the C code is an append at the end of the
modelled list.  Hash_Final justifies dropping the stale bytes beyond the
valid region: it masks the 32-bit word containing byte position L, keeping
only the bytes below L, and then zero-fills every later word, so no stale
byte ever reaches the compression function.
-/

/-- Modulus of 32-bit words, 2 ^ 32. -/
def M32 : Nat := 4294967296

/-- Modulus of the 64-bit length counter, 2 ^ 64. -/
def M64 : Nat := 18446744073709551616

/-- ROTR32 from the C code: (x >> n) ^ (x << (32 - n)) on uint32, i.e. the
left shift wraps modulo 2^32. -/
def ROTR32 (x n : Nat) : Nat := Nat.xor (x >>> n) ((x <<< (32 - n)) % M32)

/-- Ch from the C code, the optimized form z ^ (x & (y ^ z)). -/
def Ch (x y z : Nat) : Nat := Nat.xor z (Nat.land x (Nat.xor y z))

/-- Maj from the C code, the optimized form (x & y) ^ (z & (x ^ y)). -/
def Maj (x y z : Nat) : Nat := Nat.xor (Nat.land x y) (Nat.land z (Nat.xor x y))

/-- Sigma0 of FIPS 180-3 4.1.2 as in the C code. -/
def Sigma0 (x : Nat) : Nat := Nat.xor (ROTR32 x 2) (Nat.xor (ROTR32 x 13) (ROTR32 x 22))

/-- Sigma1 of FIPS 180-3 4.1.2 as in the C code. -/
def Sigma1 (x : Nat) : Nat := Nat.xor (ROTR32 x 6) (Nat.xor (ROTR32 x 11) (ROTR32 x 25))

/-- Lowercase sigma0 of FIPS 180-3 4.1.2 as in the C code. -/
def sigma0 (x : Nat) : Nat := Nat.xor (ROTR32 x 7) (Nat.xor (ROTR32 x 18) (x >>> 3))

/-- Lowercase sigma1 of FIPS 180-3 4.1.2 as in the C code. -/
def sigma1 (x : Nat) : Nat := Nat.xor (ROTR32 x 17) (Nat.xor (ROTR32 x 19) (x >>> 10))

/-- The 64 round constants rhash_k256 of the C code. -/
def rhash_k256 : List Nat :=
  [1116352408, 1899447441, 3049323471, 3921009573, 961987163, 1508970993,
   2453635748, 2870763221, 3624381080, 310598401, 607225278, 1426881987,
   1925078388, 2162078206, 2614888103, 3248222580, 3835390401, 4022224774,
   264347078, 604807628, 770255983, 1249150122, 1555081692, 1996064986,
   2554220882, 2821834349, 2952996808, 3210313671, 3336571891, 3584528711,
   113926993, 338241895, 666307205, 773529912, 1294757372, 1396182291,
   1695183700, 1986661051, 2177026350, 2456956037, 2730485921, 2820302411,
   3259730800, 3345764771, 3516065817, 3600352804, 4094571909, 275423344,
   430227734, 506948616, 659060556, 883997877, 958139571, 1322822218,
   1537002063, 1747873779, 1955562222, 2024104815, 2227730452, 2361852424,
   2428436474, 2756734187, 3204031479, 3329325298]

/-- Word n of a 64-byte block, interpreted big-endian.  This models
bswap_32(block[n]) of the C code: the little-endian WASM load of word n of
the byte buffer followed by the byte swap yields exactly the big-endian
value of bytes 4n .. 4n+3. -/
def be32at (block : List Nat) (n : Nat) : Nat :=
  ((block.getD (4 * n) 0 * 256 + block.getD (4 * n + 1) 0) * 256
    + block.getD (4 * n + 2) 0) * 256 + block.getD (4 * n + 3) 0

/-- The eight working variables A..H of sha256_process_block. -/
structure RoundVars where
  a : Nat
  b : Nat
  c : Nat
  d : Nat
  e : Nat
  f : Nat
  g : Nat
  h : Nat
  deriving DecidableEq

/-- The ROUND macro of the C code, written as the state transformer it
performs on the eight-variable register: the C computes T1, does d += T1
and h = T1 + Sigma0(a) + Maj(a,b,c), and the next unrolled ROUND call
renames the variables one position onward; reading the renamed variables
back in a fixed order gives exactly this rotation. -/
def ROUND (v : RoundVars) (k data : Nat) : RoundVars :=
  let T1 := (v.h + Sigma1 v.e + Ch v.e v.f v.g + k + data) % M32
  { a := (T1 + Sigma0 v.a + Maj v.a v.b v.c) % M32
    b := v.a
    c := v.b
    d := v.c
    e := (v.d + T1) % M32
    f := v.e
    g := v.f
    h := v.g }

/-- The RECALCULATE_W macro: W[n] += sigma1(W[(n-2) & 15]) + W[(n-7) & 15]
+ sigma0(W[(n-15) & 15]), on the 16-entry circular buffer.  The C index
arithmetic is on int, so for n in 0..15 the masked offsets (n-2) & 15,
(n-7) & 15 and (n-15) & 15 are (n+14) % 16, (n+9) % 16 and (n+1) % 16. -/
def RECALCULATE_W (W : Nat → Nat) (n : Nat) : Nat :=
  (W n + (sigma1 (W ((n + 14) % 16)) + W ((n + 9) % 16) + sigma0 (W ((n + 1) % 16)))) % M32

/-- One unrolled round of sha256_process_block at global round number t:
rounds 0..15 are ROUND_1_16 (the schedule word is loaded big-endian from
the block and stored into W[t]), rounds 16..63 are ROUND_17_64 (the
schedule word is recalculated in place in the circular buffer at t % 16). -/
def implStep (block : List Nat) (t : Nat) (s : RoundVars × (Nat → Nat)) :
    RoundVars × (Nat → Nat) :=
  let data := if t < 16 then be32at block t else RECALCULATE_W s.2 (t % 16)
  (ROUND s.1 (rhash_k256.getD t 0) data, fun j => if j = t % 16 then data else s.2 j)

/-- The first t unrolled rounds of sha256_process_block. -/
def implIter (block : List Nat) : Nat → RoundVars × (Nat → Nat) → RoundVars × (Nat → Nat)
  | 0, s => s
  | t + 1, s => implStep block t (implIter block t s)

/-- The core transformation sha256_process_block: load the eight working
variables from the hash state, run the 64 unrolled rounds (the local W
buffer starts uninitialized; rounds 0..15 write every entry before any
round reads it, so the model starts it at 0), and add the working
variables back into the state words. -/
def sha256_process_block (hash : List Nat) (block : List Nat) : List Nat :=
  let v0 : RoundVars :=
    { a := hash.getD 0 0, b := hash.getD 1 0, c := hash.getD 2 0, d := hash.getD 3 0
      e := hash.getD 4 0, f := hash.getD 5 0, g := hash.getD 6 0, h := hash.getD 7 0 }
  let v := (implIter block 64 (v0, fun _ => 0)).1
  [(hash.getD 0 0 + v.a) % M32, (hash.getD 1 0 + v.b) % M32,
   (hash.getD 2 0 + v.c) % M32, (hash.getD 3 0 + v.d) % M32,
   (hash.getD 4 0 + v.e) % M32, (hash.getD 5 0 + v.f) % M32,
   (hash.getD 6 0 + v.g) % M32, (hash.getD 7 0 + v.h) % M32]

/-- The struct sha256_ctx of the C code.  The field message models the
64-byte leftover buffer by its valid region (see the file header). -/
structure sha256_ctx where
  message : List Nat
  length : Nat
  hash : List Nat
  digest_length : Nat
  deriving DecidableEq

/-- Initial state words of SHA-256 (SHA256_H0 in the C code). -/
def SHA256_H0 : List Nat :=
  [1779033703, 3144134277, 1013904242, 2773480762,
   1359893119, 2600822924, 528734635, 1541459225]

/-- Initial state words of SHA-224 (SHA224_H0 in the C code). -/
def SHA224_H0 : List Nat :=
  [3238371032, 914150663, 812702999, 4144912697,
   4290775857, 1750603025, 1694076839, 3204075428]

/-- sha256_init: length 0, digest length 32 bytes, SHA-256 initial words.
The C code leaves the leftover buffer untouched; with length 0 its valid
region is empty, so the model clears the list. -/
def sha256_init : sha256_ctx :=
  { message := [], length := 0, hash := SHA256_H0, digest_length := 32 }

/-- sha224_init: length 0, digest length 28 bytes, SHA-224 initial words. -/
def sha224_init : sha256_ctx :=
  { message := [], length := 0, hash := SHA224_H0, digest_length := 28 }

/-- Hash_Init: bits = 224 selects sha224_init, every other value selects
sha256_init; the C function always returns 0, modelled as the second
component. -/
def Hash_Init (bits : Nat) : sha256_ctx × Nat :=
  (if bits = 224 then sha224_init else sha256_init, 0)

/-- The while loop of Hash_Update: as long as at least 64 bytes remain,
process one 64-byte block and advance.  The loop is given explicit fuel
(any value at least the number of bytes is enough, since every iteration
consumes 64 bytes); the pair returned is (hash state, remaining bytes). -/
def processBlocksFuel : Nat → List Nat → List Nat → List Nat × List Nat
  | 0, h, msg => (h, msg)
  | fuel + 1, h, msg =>
    if 64 ≤ msg.length then
      processBlocksFuel fuel (sha256_process_block h (msg.take 64)) (msg.drop 64)
    else (h, msg)

/-- Hash_Update.  index is the number of valid leftover bytes; the length
counter is a uint64 and wraps modulo 2^64.  If a partial block is pending,
the C first copies bytes into it at offset index (an append on the
modelled valid region); if that does not complete the block it returns,
otherwise it compresses the completed block, then the while loop
compresses every directly available full block, and any tail shorter than
64 bytes is stored as the new leftover (at offset 0, so the stored tail is
the whole new valid region). -/
def Hash_Update (c : sha256_ctx) (msg : List Nat) : sha256_ctx :=
  let size := msg.length
  let index := c.length % 64
  let length2 := (c.length + size) % M64
  if index ≠ 0 then
    let left := 64 - index
    if size < left then
      { c with message := c.message ++ msg, length := length2 }
    else
      let h1 := sha256_process_block c.hash (c.message ++ msg.take left)
      let r := processBlocksFuel size h1 (msg.drop left)
      { message := r.2, length := length2, hash := r.1, digest_length := c.digest_length }
  else
    let r := processBlocksFuel size c.hash msg
    { message := r.2, length := length2, hash := r.1, digest_length := c.digest_length }

/-- Big-endian bytes of a 32-bit word.  Hash_Final stores ctx->hash[i] =
bswap_32(hash word) and then copies the array byte by byte in memory
order; on the little-endian WASM target that emits exactly the big-endian
bytes of each word. -/
def wordBytesBE (w : Nat) : List Nat :=
  [w / 16777216 % 256, w / 65536 % 256, w / 256 % 256, w % 256]

/-- Digest serialization of Hash_Final: big-endian bytes of the eight
state words, truncated to digest_length bytes. -/
def digestBytes (hash : List Nat) (dl : Nat) : List Nat :=
  ((hash.map wordBytesBE).flatten).take dl

/-- The two length words Hash_Final writes: message[14] =
bswap_32((uint32)(length >> 29)) and message[15] =
bswap_32((uint32)(length << 3)), i.e. the big-endian bytes of the total
bit count truncated to 64 bits. -/
def lenBytesBE (len : Nat) : List Nat :=
  wordBytesBE ((len >>> 29) % M32) ++ wordBytesBE ((len <<< 3) % M32)

/-- The state words after the final padded block(s) of Hash_Final.  With L
= length mod 64 valid leftover bytes, the C stores 0x80 at byte position L
(the word write masks away the stale bytes at positions above L in that
word), and branches on the word index after that store: if it exceeds 14
(i.e. L is at least 56) the current block is zero-filled, compressed, and
a second block of 56 zero bytes plus the length field is compressed;
otherwise zeros up to byte 55 and the length field complete the single
final block. -/
def finalState (c : sha256_ctx) : List Nat :=
  let L := c.length % 64
  if 14 < L / 4 + 1 then
    sha256_process_block
      (sha256_process_block c.hash (c.message ++ 128 :: List.replicate (63 - L) 0))
      (List.replicate 56 0 ++ lenBytesBE c.length)
  else
    sha256_process_block c.hash
      (c.message ++ 128 :: (List.replicate (55 - L) 0 ++ lenBytesBE c.length))

/-- Hash_Final: digest written to the output buffer. -/
def Hash_Final (c : sha256_ctx) : List Nat :=
  digestBytes (finalState c) c.digest_length

/-- Byte swap of a 32-bit word. -/
def bswap32 (w : Nat) : Nat :=
  w % 256 * 16777216 + w / 256 % 256 * 65536 + w / 65536 % 256 * 256 + w / 16777216 % 256

/-- The context as Hash_Final leaves it: the length counter is not
touched, the hash words hold the byte-swapped final state, and the
leftover buffer holds the last padded block that was compressed (all 16 of
its words were written by Hash_Final). -/
def Hash_Final_ctx (c : sha256_ctx) : sha256_ctx :=
  let L := c.length % 64
  { message :=
      if 14 < L / 4 + 1 then List.replicate 56 0 ++ lenBytesBE c.length
      else c.message ++ 128 :: (List.replicate (55 - L) 0 ++ lenBytesBE c.length)
    length := c.length
    hash := (finalState c).map bswap32
    digest_length := c.digest_length }

/-- Hexadecimal digit character. -/
def hexDigit (n : Nat) : Char := if n < 10 then Char.ofNat (48 + n) else Char.ofNat (87 + n)

/-- Two lowercase hexadecimal characters of one byte. -/
def hexByte (b : Nat) : String := String.mk [hexDigit (b / 16), hexDigit (b % 16)]

/-- Lowercase hexadecimal encoding of a byte list. -/
def hexEncode (bs : List Nat) : String := String.join (bs.map hexByte)

/-- One absorbed byte of the byte-at-a-time absorption specification: push
the byte onto the pending block and compress exactly when the pending
block reaches 64 bytes.  This is the proof-side characterization of the
update loop; compressing once per completed 64-byte prefix of the stream
is literally its definition. -/
def absorbByte (st : List Nat × List Nat) (b : Nat) : List Nat × List Nat :=
  let pend := st.2 ++ [b]
  if pend.length = 64 then (sha256_process_block st.1 pend, []) else (st.1, pend)

/-- Fold Hash_Update over a list of chunks. -/
def updateChunks (c : sha256_ctx) (cs : List (List Nat)) : sha256_ctx :=
  cs.foldl Hash_Update c

/-- Modelled from the spec: the full 64-word message schedule of the
reference FIPS definition, W[n] = block word n for n < 16 and W[n] =
sigma1(W[n-2]) + W[n-7] + sigma0(W[n-15]) + W[n-16] mod 2^32 above,
materialized as a function of the round number. -/
def fipsW (block : List Nat) : Nat → Nat
  | n =>
    if h : n < 16 then be32at block n
    else (sigma1 (fipsW block (n - 2)) + fipsW block (n - 7)
          + sigma0 (fipsW block (n - 15)) + fipsW block (n - 16)) % M32
  termination_by n => n
  decreasing_by all_goals omega

/-- Modelled from the spec: one reference round, T1 = h + Sigma1(e) +
Ch(e,f,g) + K[t] + W[t], T2 = Sigma0(a) + Maj(a,b,c), then the
eight-variable rotation with a = T1 + T2 and e = d + T1. -/
def refRound (v : RoundVars) (kt wt : Nat) : RoundVars :=
  let T1 := (v.h + Sigma1 v.e + Ch v.e v.f v.g + kt + wt) % M32
  let T2 := (Sigma0 v.a + Maj v.a v.b v.c) % M32
  { a := (T1 + T2) % M32
    b := v.a
    c := v.b
    d := v.c
    e := (v.d + T1) % M32
    f := v.e
    g := v.f
    h := v.g }

/-- Modelled from the spec: the first t reference rounds, indexing the
materialized schedule. -/
def fipsRounds (block : List Nat) : Nat → RoundVars → RoundVars
  | 0, v => v
  | t + 1, v => refRound (fipsRounds block t v) (rhash_k256.getD t 0) (fipsW block t)

/-- Modelled from the spec: the reference FIPS compression function with
the materialized 64-word schedule, adding the final working variables back
into the state words modulo 2^32. -/
def fipsCompress (hash : List Nat) (block : List Nat) : List Nat :=
  let v0 : RoundVars :=
    { a := hash.getD 0 0, b := hash.getD 1 0, c := hash.getD 2 0, d := hash.getD 3 0
      e := hash.getD 4 0, f := hash.getD 5 0, g := hash.getD 6 0, h := hash.getD 7 0 }
  let v := fipsRounds block 64 v0
  [(hash.getD 0 0 + v.a) % M32, (hash.getD 1 0 + v.b) % M32,
   (hash.getD 2 0 + v.c) % M32, (hash.getD 3 0 + v.d) % M32,
   (hash.getD 4 0 + v.e) % M32, (hash.getD 5 0 + v.f) % M32,
   (hash.getD 6 0 + v.g) % M32, (hash.getD 7 0 + v.h) % M32]

/-- Big-endian bytes of a 64-bit value, the form in which the spec states
the length field. -/
def bytesBE8 (x : Nat) : List Nat :=
  [x / 72057594037927936 % 256, x / 281474976710656 % 256,
   x / 1099511627776 % 256, x / 4294967296 % 256,
   x / 16777216 % 256, x / 65536 % 256, x / 256 % 256, x % 256]

/-- The context after absorbing m bytes into c, stated through the
byte-at-a-time absorption specification.  Hash_Update is proved equal to
this on every context satisfying the pending-bytes invariant. -/
def absorbedCtx (c : sha256_ctx) (m : List Nat) : sha256_ctx :=
  { message := (List.foldl absorbByte (c.hash, c.message) m).2
    length := (c.length + m.length) % M64
    hash := (List.foldl absorbByte (c.hash, c.message) m).1
    digest_length := c.digest_length }

lemma foldl_absorbByte_fill : ∀ (m h pend : List Nat), pend.length + m.length < 64 →
    List.foldl absorbByte (h, pend) m = (h, pend ++ m) := by
  intro m
  induction m with
  | nil => intro h pend _; simp
  | cons b m ih =>
    intro h pend hlen
    simp only [List.length_cons] at hlen
    have hstep : absorbByte (h, pend) b = (h, pend ++ [b]) := by simp [absorbByte]; omega
    have hlen2 : (pend ++ [b]).length + m.length < 64 := by
      simp only [List.length_append, List.length_cons, List.length_nil]; omega
    simp only [List.foldl_cons]
    rw [hstep, ih h (pend ++ [b]) hlen2]
    simp

lemma foldl_absorbByte_exact : ∀ (m h pend : List Nat), pend.length + m.length = 64 → m ≠ [] →
    List.foldl absorbByte (h, pend) m = (sha256_process_block h (pend ++ m), []) := by
  intro m
  induction m with
  | nil => intro h pend _ hne; exact absurd rfl hne
  | cons b m ih =>
    intro h pend hlen _
    simp only [List.length_cons] at hlen
    by_cases hm : m = []
    · subst hm
      simp only [List.length_nil] at hlen
      have hstep : absorbByte (h, pend) b = (sha256_process_block h (pend ++ [b]), []) := by
        simp [absorbByte]; omega
      simp only [List.foldl_cons]
      rw [hstep]
      simp
    · have hmlen : 0 < m.length := List.length_pos.mpr hm
      have hstep : absorbByte (h, pend) b = (h, pend ++ [b]) := by simp [absorbByte]; omega
      have hlen2 : (pend ++ [b]).length + m.length = 64 := by
        simp only [List.length_append, List.length_cons, List.length_nil]; omega
      simp only [List.foldl_cons]
      rw [hstep, ih h (pend ++ [b]) hlen2 hm]
      simp

lemma processBlocksFuel_absorb : ∀ (f : Nat) (m h : List Nat), m.length ≤ f →
    processBlocksFuel f h m = List.foldl absorbByte (h, []) m := by
  intro f
  induction f with
  | zero =>
    intro m h hm
    have : m = [] := List.length_eq_zero.mp (by omega)
    subst this; rfl
  | succ f ih =>
    intro m h hm
    by_cases h64 : 64 ≤ m.length
    · simp only [processBlocksFuel, if_pos h64]
      rw [ih (m.drop 64) _ (by simp only [List.length_drop]; omega)]
      conv_rhs => rw [← List.take_append_drop 64 m]
      rw [List.foldl_append]
      rw [foldl_absorbByte_exact (m.take 64) h []
        (by simp only [List.length_nil, List.length_take]; omega)
        (by intro hc; have := congrArg List.length hc
            simp only [List.length_take, List.length_nil] at this; omega)]
      simp
    · simp only [processBlocksFuel, if_neg h64]
      rw [foldl_absorbByte_fill m h [] (by simp only [List.length_nil]; omega)]
      simp

lemma foldl_absorbByte_snd_length : ∀ (m h pend : List Nat), pend.length < 64 →
    (List.foldl absorbByte (h, pend) m).2.length = (pend.length + m.length) % 64 := by
  intro m
  induction m with
  | nil => intro h pend hp; simp [Nat.mod_eq_of_lt hp]
  | cons b m ih =>
    intro h pend hp
    by_cases h64 : pend.length + 1 = 64
    · have hstep : absorbByte (h, pend) b = (sha256_process_block h (pend ++ [b]), []) := by
        simp [absorbByte]; omega
      simp only [List.foldl_cons]
      rw [hstep, ih _ [] (by norm_num)]
      simp only [List.length_nil, List.length_cons]
      omega
    · have hstep : absorbByte (h, pend) b = (h, pend ++ [b]) := by simp [absorbByte]; omega
      have hp2 : (pend ++ [b]).length < 64 := by
        simp only [List.length_append, List.length_cons, List.length_nil]; omega
      simp only [List.foldl_cons]
      rw [hstep, ih _ _ hp2]
      simp only [List.length_append, List.length_cons, List.length_nil]
      omega

lemma Hash_Update_length : ∀ (c : sha256_ctx) (msg : List Nat),
    (Hash_Update c msg).length = (c.length + msg.length) % M64 := by
  intro c msg
  simp only [Hash_Update]
  split
  · split <;> rfl
  · rfl

lemma Hash_Update_absorb (c : sha256_ctx) (msg : List Nat)
    (h : c.message.length = c.length % 64) :
    Hash_Update c msg = absorbedCtx c msg := by
  have hlt : c.length % 64 < 64 := Nat.mod_lt _ (by norm_num)
  by_cases h1 : c.length % 64 = 0
  · have hm : c.message = [] := List.length_eq_zero.mp (by omega)
    simp only [Hash_Update, absorbedCtx, if_neg (by omega : ¬ c.length % 64 ≠ 0)]
    rw [hm, processBlocksFuel_absorb msg.length msg c.hash (le_refl _)]
  · by_cases h2 : msg.length < 64 - c.length % 64
    · simp only [Hash_Update, absorbedCtx, if_pos (by omega : c.length % 64 ≠ 0), if_pos h2]
      rw [foldl_absorbByte_fill msg c.hash c.message (by omega)]
    · simp only [Hash_Update, absorbedCtx, if_pos (by omega : c.length % 64 ≠ 0), if_neg h2]
      have htake : (msg.take (64 - c.length % 64)).length = 64 - c.length % 64 := by
        simp only [List.length_take]; omega
      conv_rhs => rw [← List.take_append_drop (64 - c.length % 64) msg]
      rw [List.foldl_append]
      rw [foldl_absorbByte_exact (msg.take (64 - c.length % 64)) c.hash c.message
        (by rw [htake]; omega)
        (by intro hc; rw [hc] at htake; simp at htake; omega)]
      rw [← processBlocksFuel_absorb msg.length _ _
        (by simp only [List.length_drop]; omega)]
      simp only [List.take_append_drop]

lemma absorbedCtx_append (c : sha256_ctx) (a b : List Nat) :
    absorbedCtx (absorbedCtx c a) b = absorbedCtx c (a ++ b) := by
  simp only [absorbedCtx, List.foldl_append, List.length_append, Prod.mk.eta,
    sha256_ctx.mk.injEq, true_and, and_true]
  simp only [M64]
  omega

lemma updateChunks_absorb : ∀ (cs : List (List Nat)) (c : sha256_ctx),
    c.message.length = c.length % 64 → c.length < M64 →
    updateChunks c cs = absorbedCtx c cs.flatten := by
  intro cs
  induction cs with
  | nil =>
    intro c h hlt
    simp only [updateChunks, List.foldl_nil, List.flatten_nil]
    simp only [absorbedCtx, List.foldl_nil, List.length_nil, Nat.add_zero]
    rw [Nat.mod_eq_of_lt hlt]
  | cons a cs ih =>
    intro c h hlt
    have hm64 : c.length % 64 < 64 := Nat.mod_lt _ (by norm_num)
    have h1 : (absorbedCtx c a).message.length = (absorbedCtx c a).length % 64 := by
      simp only [absorbedCtx]
      rw [foldl_absorbByte_snd_length a c.hash c.message (by omega), h]
      simp only [M64]
      omega
    have h2 : (absorbedCtx c a).length < M64 := by
      simp only [absorbedCtx, M64]
      omega
    have hrec := ih (absorbedCtx c a) h1 h2
    simp only [updateChunks] at hrec ⊢
    simp only [List.foldl_cons, List.flatten_cons]
    rw [Hash_Update_absorb c a h, hrec, absorbedCtx_append]

lemma lenBytesBE_eq_bytesBE8 (len : Nat) : lenBytesBE len = bytesBE8 (len * 8 % M64) := by
  simp only [lenBytesBE, bytesBE8, wordBytesBE, M32, M64, Nat.shiftRight_eq_div_pow,
    Nat.shiftLeft_eq, List.cons_append, List.nil_append, List.cons.injEq, and_true]
  norm_num
  omega

lemma processBlocksFuel_one (h b1 : List Nat) (hb : b1.length = 64) (f : Nat) :
    processBlocksFuel (f + 1) h b1 = (sha256_process_block h b1, []) := by
  simp only [processBlocksFuel]
  rw [if_pos (by omega)]
  rw [List.take_of_length_le (by omega), List.drop_eq_nil_of_le (by omega)]
  cases f <;> simp [processBlocksFuel]

lemma processBlocksFuel_two (h b1 b2 : List Nat) (h1 : b1.length = 64)
    (h2 : b2.length = 64) (f : Nat) :
    processBlocksFuel (f + 2) h (b1 ++ b2)
      = (sha256_process_block (sha256_process_block h b1) b2, []) := by
  have e1 : processBlocksFuel (f + 2) h (b1 ++ b2)
      = processBlocksFuel (f + 1) (sha256_process_block h b1) b2 := by
    show processBlocksFuel (f + 1 + 1) h (b1 ++ b2) = _
    simp only [processBlocksFuel]
    rw [if_pos (by simp only [List.length_append]; omega)]
    rw [List.take_left' h1, List.drop_left' h1]
  rw [e1, processBlocksFuel_one _ _ h2 f]

lemma ROUND_eq_refRound (v : RoundVars) (k w : Nat) : ROUND v k w = refRound v k w := by
  simp only [ROUND, refRound, RoundVars.mk.injEq, true_and, and_true]
  simp only [M32]
  omega

lemma Winv (block : List Nat) (v : RoundVars) :
    ∀ t j : Nat, j < 16 →
      (j < t → (implIter block t (v, fun _ => 0)).2 j
          = fipsW block (t - 1 - ((t - 1 - j) % 16))) ∧
      (t ≤ j → (implIter block t (v, fun _ => 0)).2 j = 0) := by
  intro t
  induction t with
  | zero =>
    intro j hj
    exact ⟨fun hlt => absurd hlt (Nat.not_lt_zero j), fun _ => rfl⟩
  | succ t ih =>
    intro j hj
    constructor
    · intro hjt
      simp only [implIter, implStep]
      by_cases hje : j = t % 16
      · rw [if_pos hje]
        by_cases ht : t < 16
        · rw [if_pos ht]
          rw [show t + 1 - 1 - ((t + 1 - 1 - j) % 16) = t from by omega]
          rw [fipsW, dif_pos ht]
        · rw [if_neg ht]
          simp only [RECALCULATE_W]
          rw [show (t % 16 + 14) % 16 = (t + 14) % 16 from by omega,
              show (t % 16 + 9) % 16 = (t + 9) % 16 from by omega,
              show (t % 16 + 1) % 16 = (t + 1) % 16 from by omega]
          have r0 := (ih (t % 16) (by omega)).1 (by omega)
          have r1 := (ih ((t + 14) % 16) (by omega)).1 (by omega)
          have r2 := (ih ((t + 9) % 16) (by omega)).1 (by omega)
          have r3 := (ih ((t + 1) % 16) (by omega)).1 (by omega)
          rw [r0, r1, r2, r3]
          rw [show t - 1 - ((t - 1 - t % 16) % 16) = t - 16 from by omega,
              show t - 1 - ((t - 1 - (t + 14) % 16) % 16) = t - 2 from by omega,
              show t - 1 - ((t - 1 - (t + 9) % 16) % 16) = t - 7 from by omega,
              show t - 1 - ((t - 1 - (t + 1) % 16) % 16) = t - 15 from by omega]
          rw [show t + 1 - 1 - ((t + 1 - 1 - j) % 16) = t from by omega]
          conv_rhs => rw [fipsW]
          rw [dif_neg (by omega)]
          congr 1
          ring
      · rw [if_neg hje]
        by_cases hjt2 : j < t
        · rw [(ih j hj).1 hjt2]
          congr 1
          omega
        · exfalso
          omega
    · intro hjt1
      simp only [implIter, implStep]
      rw [if_neg (by omega : ¬ j = t % 16)]
      exact (ih j hj).2 (by omega)

lemma implStep_data_eq (block : List Nat) (v : RoundVars) (t : Nat) :
    (if t < 16 then be32at block t
     else RECALCULATE_W (implIter block t (v, fun _ => 0)).2 (t % 16)) = fipsW block t := by
  have hw := (Winv block v (t + 1) (t % 16) (by omega)).1 (by omega)
  simp only [implIter, implStep] at hw
  simp only [if_true] at hw
  rw [show t + 1 - 1 - ((t + 1 - 1 - t % 16) % 16) = t from by omega] at hw
  exact hw

lemma implIter_fst_eq (block : List Nat) (v : RoundVars) :
    ∀ t, (implIter block t (v, fun _ => 0)).1 = fipsRounds block t v := by
  intro t
  induction t with
  | zero => rfl
  | succ t ih =>
    simp only [implIter, implStep, fipsRounds]
    rw [ih, implStep_data_eq block v t, ROUND_eq_refRound]

/-- Claim C1: chunking invariance.  For every variant and every list of
chunks (zero-length chunks and the empty chunk list included), running
init then update on each chunk in order and then final yields the same
digest as init, one update on the concatenation of the chunks, final. -/
theorem chunking_invariance : ∀ (bits : Nat) (cs : List (List Nat)),
    Hash_Final (updateChunks (Hash_Init bits).1 cs)
      = Hash_Final (Hash_Update (Hash_Init bits).1 cs.flatten) := by
  intro bits cs
  have h1 : (Hash_Init bits).1.message.length = (Hash_Init bits).1.length % 64 := by
    by_cases hb : bits = 224 <;> simp [Hash_Init, hb, sha224_init, sha256_init]
  have h2 : (Hash_Init bits).1.length < M64 := by
    by_cases hb : bits = 224 <;> simp [Hash_Init, hb, sha224_init, sha256_init, M64]
  rw [updateChunks_absorb cs (Hash_Init bits).1 h1 h2,
      Hash_Update_absorb (Hash_Init bits).1 cs.flatten h1]

/-- Claim C2: known-answer vector.  init(SHA256); update("abc"); final()
produces exactly the 32-byte digest with hex encoding
ba7816bf8f01cfea414140de5dae2223b00361a396177a9cb410ff61f20015ad. -/
theorem sha256_abc_kat :
    (Hash_Final (Hash_Update (Hash_Init 256).1 [97, 98, 99])).length = 32 ∧
    hexEncode (Hash_Final (Hash_Update (Hash_Init 256).1 [97, 98, 99]))
      = "ba7816bf8f01cfea414140de5dae2223b00361a396177a9cb410ff61f20015ad" := by
  decide

/-- Claim C3: the compression function with the 16-word circular schedule
buffer and the fused round update computes, for every hash state and
every block, the same updated state as the reference FIPS definition with
the materialized 64-word schedule. -/
theorem sha256_process_block_eq_fips : ∀ (hash block : List Nat),
    sha256_process_block hash block = fipsCompress hash block := by
  intro hash block
  simp only [sha256_process_block, fipsCompress]
  rw [implIter_fst_eq]

/-- Claim C4: finalization padding.  On any context satisfying the
pending-bytes invariant (L = totalLength mod 64 valid pending bytes),
Hash_Final equals: append 0x80 after the L pending bytes, append zero
bytes until the padded length is 56 mod 64, append totalLength * 8 as a
big-endian 64-bit integer, run the block-processing loop over the padded
data (one compression per 64-byte block), and serialize.  The padded data
is 128 bytes (two compressions) exactly when 56 ≤ L and 64 bytes (one
compression) when L ≤ 55. -/
theorem Hash_Final_padding (c : sha256_ctx)
    (h : c.message.length = c.length % 64) :
    Hash_Final c = digestBytes
        (processBlocksFuel 128 c.hash
          (c.message ++ 128 :: (List.replicate ((119 - c.length % 64) % 64) 0
            ++ bytesBE8 (c.length * 8 % M64)))).1 c.digest_length ∧
    (c.message.length + 1 + (119 - c.length % 64) % 64) % 64 = 56 ∧
    (c.message ++ 128 :: (List.replicate ((119 - c.length % 64) % 64) 0
        ++ bytesBE8 (c.length * 8 % M64))).length
      = 64 * (if 56 ≤ c.length % 64 then 2 else 1) := by
  have hm : c.length % 64 < 64 := Nat.mod_lt _ (by norm_num)
  have hlen8 : (bytesBE8 (c.length * 8 % M64)).length = 8 := by simp [bytesBE8]
  by_cases hc : 56 ≤ c.length % 64
  · have hz : (119 - c.length % 64) % 64 = 119 - c.length % 64 := by omega
    have hsplit : c.message ++ 128 :: (List.replicate (119 - c.length % 64) 0
          ++ bytesBE8 (c.length * 8 % M64))
        = (c.message ++ 128 :: List.replicate (63 - c.length % 64) 0)
          ++ (List.replicate 56 0 ++ bytesBE8 (c.length * 8 % M64)) := by
      rw [show 119 - c.length % 64 = (63 - c.length % 64) + 56 from by omega,
          List.replicate_add]
      simp [List.append_assoc]
    refine ⟨?_, by omega, ?_⟩
    · rw [hz, hsplit]
      have hb1 : (c.message ++ 128 :: List.replicate (63 - c.length % 64) 0).length = 64 := by
        simp only [List.length_append, List.length_cons, List.length_replicate]
        omega
      have hb2 : (List.replicate 56 0 ++ bytesBE8 (c.length * 8 % M64)).length = 64 := by
        simp only [List.length_append, List.length_replicate, hlen8]
      rw [show (128 : Nat) = 126 + 2 from rfl, processBlocksFuel_two _ _ _ hb1 hb2 126]
      simp only [Hash_Final, finalState]
      rw [if_pos (by omega : 14 < c.length % 64 / 4 + 1)]
      rw [lenBytesBE_eq_bytesBE8]
    · rw [hz]
      simp only [List.length_append, List.length_cons, List.length_replicate, hlen8,
        if_pos hc]
      omega
  · have hz : (119 - c.length % 64) % 64 = 55 - c.length % 64 := by omega
    refine ⟨?_, by omega, ?_⟩
    · rw [hz]
      have hb1 : (c.message ++ 128 :: (List.replicate (55 - c.length % 64) 0
          ++ bytesBE8 (c.length * 8 % M64))).length = 64 := by
        simp only [List.length_append, List.length_cons, List.length_replicate, hlen8]
        omega
      rw [show (128 : Nat) = 127 + 1 from rfl, processBlocksFuel_one _ _ hb1 127]
      simp only [Hash_Final, finalState]
      rw [if_neg (by omega : ¬ 14 < c.length % 64 / 4 + 1)]
      rw [lenBytesBE_eq_bytesBE8]
    · rw [hz]
      simp only [List.length_append, List.length_cons, List.length_replicate, hlen8,
        if_neg hc]
      omega

/-- Witness for claim C4, instantiated at the freshly initialized SHA-256
context. -/
theorem Hash_Final_padding_witness :
    ((Hash_Init 256).1.message.length = (Hash_Init 256).1.length % 64) ∧
    (Hash_Final (Hash_Init 256).1 = digestBytes
        (processBlocksFuel 128 (Hash_Init 256).1.hash
          ((Hash_Init 256).1.message
            ++ 128 :: (List.replicate ((119 - (Hash_Init 256).1.length % 64) % 64) 0
            ++ bytesBE8 ((Hash_Init 256).1.length * 8 % M64)))).1
        (Hash_Init 256).1.digest_length ∧
      ((Hash_Init 256).1.message.length + 1
          + (119 - (Hash_Init 256).1.length % 64) % 64) % 64 = 56 ∧
      ((Hash_Init 256).1.message
          ++ 128 :: (List.replicate ((119 - (Hash_Init 256).1.length % 64) % 64) 0
          ++ bytesBE8 ((Hash_Init 256).1.length * 8 % M64))).length
        = 64 * (if 56 ≤ (Hash_Init 256).1.length % 64 then 2 else 1)) :=
  ⟨by decide, Hash_Final_padding (Hash_Init 256).1 (by decide)⟩

/-- Claim C5, corrected part: the empty-message digest of the code does
not equal the canonical value as literally stated by the spec, because the
stated string e3b0...b85 has only 63 hex characters (its final character
is missing). -/
theorem sha256_empty_canonical_mismatch :
    hexEncode (Hash_Final (Hash_Init 256).1)
      ≠ "e3b0c44298fc1c149afbf4c8996fb92427ae41e4649b934ca495991b7852b85" := by
  decide

/-- Claim C5 as amended: init(SHA256) followed immediately by final (or
with only a zero-length update in between) is valid and produces the
32-byte digest with hex encoding
e3b0c44298fc1c149afbf4c8996fb92427ae41e4649b934ca495991b7852b855; the
64-character value here is the correct one, the spec quotes a 63-character
truncation of it as its canonical string. -/
theorem sha256_empty_kat :
    (Hash_Final (Hash_Init 256).1).length = 32 ∧
    hexEncode (Hash_Final (Hash_Init 256).1)
      = "e3b0c44298fc1c149afbf4c8996fb92427ae41e4649b934ca495991b7852b855" ∧
    Hash_Final (Hash_Update (Hash_Init 256).1 []) = Hash_Final (Hash_Init 256).1 := by
  decide

/-- Claim C6, corrected part: the SHA-224 digest of "abc" produced by the
code does not have the hex encoding stated by the spec, because the stated
string 23097d...9da has only 55 hex characters (a 28-byte digest has 56)
and is missing its final character. -/
theorem sha224_abc_spec_string_mismatch :
    hexEncode (Hash_Final (Hash_Update (Hash_Init 224).1 [97, 98, 99]))
      ≠ "23097d223405d8228642a477bda255b32aadbce4bda0b3f7e36c9da" := by
  decide

/-- Claim C6 as amended: init(SHA224); update("abc"); final() produces the
28-byte digest with hex encoding
23097d223405d8228642a477bda255b32aadbce4bda0b3f7e36c9da7 (the spec string
with the missing final character 7 restored). -/
theorem sha224_abc_kat :
    (Hash_Final (Hash_Update (Hash_Init 224).1 [97, 98, 99])).length = 28 ∧
    hexEncode (Hash_Final (Hash_Update (Hash_Init 224).1 [97, 98, 99]))
      = "23097d223405d8228642a477bda255b32aadbce4bda0b3f7e36c9da7" := by
  decide

/-- Claim C7: state invariant.  After init the number of valid pending
bytes equals totalLength mod 64, and Hash_Update preserves this equality
(so the value always lies below 64); moreover the hash words after an
update are exactly the fold of the byte-at-a-time absorption that
compresses once per completed 64-byte prefix of the absorbed stream. -/
theorem pending_bytes_invariant : ∀ (bits : Nat) (c : sha256_ctx) (msg : List Nat),
    (Hash_Init bits).1.message.length = (Hash_Init bits).1.length % 64 ∧
    (c.message.length = c.length % 64 →
      (Hash_Update c msg).message.length = (Hash_Update c msg).length % 64 ∧
      (Hash_Update c msg).message.length < 64 ∧
      (Hash_Update c msg).hash = (List.foldl absorbByte (c.hash, c.message) msg).1) := by
  intro bits c msg
  constructor
  · by_cases hb : bits = 224 <;> simp [Hash_Init, hb, sha224_init, sha256_init]
  · intro h
    rw [Hash_Update_absorb c msg h]
    have hm : c.message.length < 64 := by
      rw [h]
      exact Nat.mod_lt _ (by norm_num)
    have hlen := foldl_absorbByte_snd_length msg c.hash c.message hm
    refine ⟨?_, ?_, rfl⟩
    · simp only [absorbedCtx]
      rw [hlen, h]
      simp only [M64]
      omega
    · simp only [absorbedCtx]
      rw [hlen]
      omega

/-- Witness for claim C7, instantiated at the freshly initialized SHA-256
context and a three-byte update. -/
theorem pending_bytes_invariant_witness :
    ((Hash_Init 256).1.message.length = (Hash_Init 256).1.length % 64) ∧
    ((Hash_Update (Hash_Init 256).1 [1, 2, 3]).message.length
        = (Hash_Update (Hash_Init 256).1 [1, 2, 3]).length % 64 ∧
      (Hash_Update (Hash_Init 256).1 [1, 2, 3]).message.length < 64 ∧
      (Hash_Update (Hash_Init 256).1 [1, 2, 3]).hash
        = (List.foldl absorbByte ((Hash_Init 256).1.hash, (Hash_Init 256).1.message)
            [1, 2, 3]).1) :=
  ⟨by decide, (pending_bytes_invariant 256 (Hash_Init 256).1 [1, 2, 3]).2 (by decide)⟩

/-- Claim C8, corrected part: calling update after final is not rejected.
On the concrete finalized state obtained by init(SHA256); final(), a
further one-byte Hash_Update proceeds and mutates the context (the length
counter advances from 0 to 1) instead of failing: the context carries no
finalized flag and the C functions have no failure path. -/
theorem postfinal_update_not_rejected :
    Hash_Update (Hash_Final_ctx (Hash_Init 256).1) [0] ≠ Hash_Final_ctx (Hash_Init 256).1 ∧
    (Hash_Update (Hash_Final_ctx (Hash_Init 256).1) [0]).length = 1 ∧
    (Hash_Final_ctx (Hash_Init 256).1).length = 0 := by
  decide

/-- Claim C8 as amended: there is no lifecycle enforcement.  A post-final
update is processed as an ordinary update on the finalized context —
for every variant and every message it absorbs the bytes into the length
counter (and state) exactly as on a live context, with no error signal of
any kind. -/
theorem postfinal_update_proceeds : ∀ (bits : Nat) (msg : List Nat),
    (Hash_Update (Hash_Final_ctx (Hash_Init bits).1) msg).length = msg.length % M64 := by
  intro bits msg
  rw [Hash_Update_length]
  have h0 : (Hash_Final_ctx (Hash_Init bits).1).length = 0 := by
    by_cases hb : bits = 224 <;>
      simp [Hash_Init, hb, sha224_init, sha256_init, Hash_Final_ctx]
  rw [h0, Nat.zero_add]

/-- Claim C9, corrected part: reaching 2^61 absorbed bytes does not make
the engine fail.  On a context whose length counter already stands at
2^61, a further one-byte Hash_Update proceeds normally and advances the
counter to 2^61 + 1; no InputTooLarge condition exists. -/
theorem overflow_not_rejected :
    Hash_Update { message := [], length := 2 ^ 61, hash := SHA256_H0, digest_length := 32 } [0]
        ≠ { message := [], length := 2 ^ 61, hash := SHA256_H0, digest_length := 32 } ∧
    (Hash_Update { message := [], length := 2 ^ 61, hash := SHA256_H0, digest_length := 32 } [0]).length = 2 ^ 61 + 1 := by
  decide

/-- Claim C9 as amended: there is no overflow check.  Hash_Update always
adds the chunk size into the 64-bit byte counter modulo 2^64, and the
length field Hash_Final encodes is totalLength * 8 truncated to 64 bits,
so at exactly 2^61 total bytes the encoded bit length silently wraps to
zero. -/
theorem overflow_silently_wraps :
    (∀ (c : sha256_ctx) (msg : List Nat),
        (Hash_Update c msg).length = (c.length + msg.length) % M64) ∧
    lenBytesBE (2 ^ 61) = List.replicate 8 0 :=
  ⟨Hash_Update_length, by decide⟩

/-- Claim C10: Hash_Init dispatch.  Every bits value other than 224
(including 0, 256, 512 or garbage) selects the SHA-256 initial constants
and a 32-byte digest length; the return value is always 0; exactly the
value 224 selects the SHA-224 constants and a 28-byte digest length. -/
theorem hash_init_dispatch : ∀ bits : Nat,
    (bits ≠ 224 →
      (Hash_Init bits).1.hash = SHA256_H0 ∧ (Hash_Init bits).1.digest_length = 32) ∧
    (Hash_Init bits).2 = 0 ∧
    (Hash_Init 224).1.hash = SHA224_H0 ∧ (Hash_Init 224).1.digest_length = 28 := by
  intro bits
  refine ⟨fun hb => ?_, rfl, by decide, by decide⟩
  simp [Hash_Init, hb, sha256_init]

/-- Witness for claim C10, instantiated at the off-spec variant value
512. -/
theorem hash_init_dispatch_witness :
    (512 : Nat) ≠ 224 ∧
    ((Hash_Init 512).1.hash = SHA256_H0 ∧ (Hash_Init 512).1.digest_length = 32) :=
  ⟨by decide, (hash_init_dispatch 512).1 (by decide)⟩
